import Mathlib

/-!
Verification of the stork typed-container layer: the composite-key codec
(`Map::decode_key`, the length-prefixed segment built by `MapAccess::entry`),
the storage-branch namespacing, and the typed iteration engine, shallowly
embedded from the Rust sources.  Byte strings are `List Nat` whose elements
are below 256 wherever that matters; fallible operations return `Except Unit`
mirroring the Rust `Result<_, ()>` / `KeyDecodeError` types.
-/

/-- Byte strings, the currency of the storage layer. -/
abbrev Bytes := List Nat

/-- Strict lexicographic order on byte strings, as implemented by Rust's
`Ord for Vec<u8>` and used by `BTreeMap` in `tests/common/backend.rs`:
a shorter list that is a proper prefix of another sorts first. -/
def lexLt : Bytes → Bytes → Bool
  | [], [] => false
  | [], _ :: _ => true
  | _ :: _, [] => false
  | a :: as, b :: bs => decide (a < b) || (decide (a = b) && lexLt as bs)

/-- Bound check from `tests/common/backend.rs` (`check_bounds`): a key is in
range when it is not below `start` and strictly below `stop`. -/
def check_bounds (v : Bytes) (start stop : Option Bytes) : Bool :=
  (match start with
   | none => true
   | some s => !(lexLt v s)) &&
  (match stop with
   | none => true
   | some e => lexLt v e)

/-- The test backend of `tests/common/backend.rs`: a `BTreeMap<Vec<u8>, Vec<u8>>`,
modelled as an association list kept sorted in ascending `lexLt` key order. -/
def TestStorage := List (Bytes × Bytes)

instance : Membership (Bytes × Bytes) TestStorage :=
  inferInstanceAs (Membership (Bytes × Bytes) (List (Bytes × Bytes)))

/-- Point lookup (`BTreeMap::get`). -/
def TestStorage.get : TestStorage → Bytes → Option Bytes
  | [], _ => none
  | (k0, v0) :: rest, k => if k = k0 then some v0 else TestStorage.get rest k

/-- Point write (`BTreeMap::insert`): sorted insertion, replacing on equal key. -/
def TestStorage.set : TestStorage → Bytes → Bytes → TestStorage
  | [], k, v => [(k, v)]
  | (k0, v0) :: rest, k, v =>
    if lexLt k k0 then (k, v) :: (k0, v0) :: rest
    else if k = k0 then (k, v) :: rest
    else (k0, v0) :: TestStorage.set rest k v

/-- Range iteration from `tests/common/backend.rs` (`TestStorage::pairs`):
every entry of the sorted map filtered by `check_bounds`. -/
def TestStorage.pairs (s : TestStorage) (start stop : Option Bytes) :
    List (Bytes × Bytes) :=
  s.filter (fun kv => check_bounds kv.1 start stop)

/-- Capability record for a byte store, mirroring the `Storage` /
`IterableStorage` traits of `src/bin_storage.rs`. -/
structure StorageOps (σ : Type) where
  get : σ → Bytes → Option Bytes
  set : σ → Bytes → Bytes → σ
  pairs : σ → Option Bytes → Option Bytes → List (Bytes × Bytes)

/-- The backend instance for `TestStorage`. -/
def TestStorage.ops : StorageOps TestStorage :=
  ⟨TestStorage.get, TestStorage.set, TestStorage.pairs⟩

/-- Modelled from the spec: the lexicographic successor of a byte string
(§4.2), the least upper bound for the range of keys extending it — trailing
0xFF bytes cannot be incremented, so they are dropped; an empty or all-0xFF
string has no successor (`none` = unbounded).  The `StorageBranch` source
file is not under `src/`; only its uses are. -/
def keyAfter : Bytes → Option Bytes
  | [] => none
  | b :: rest =>
    match keyAfter rest with
    | some r => some (b :: r)
    | none => if b = 255 then none else some [b + 1]

/-- Modelled from the spec: a `StorageBranch` (§4.2) is an inner store
together with an owned byte-string namespacing prefix. -/
def StorageBranch (σ : Type) := σ × Bytes

/-- Modelled from the spec: the inner lower bound a branch passes to its
backend — `pfx ++ start`, or `pfx` alone when `start` is absent (§4.2). -/
def branchLo (pfx : Bytes) (start : Option Bytes) : Option Bytes :=
  match start with
  | some s => some (pfx ++ s)
  | none => some pfx

/-- Modelled from the spec: the inner upper bound a branch passes to its
backend — `pfx ++ stop`, or the lexicographic successor of `pfx` when `stop`
is absent (§4.2). -/
def branchHi (pfx : Bytes) (stop : Option Bytes) : Option Bytes :=
  match stop with
  | some e => some (pfx ++ e)
  | none => keyAfter pfx

/-- Modelled from the spec: `StorageBranch` operations (§4.2) — reads and
writes prepend the branch prefix; iteration rewrites the bounds via
`branchLo`/`branchHi` and strips the prefix from every yielded key. -/
def branchOps (S : StorageOps σ) : StorageOps (StorageBranch σ) where
  get := fun sp key => S.get sp.1 (sp.2 ++ key)
  set := fun sp key v => (S.set sp.1 (sp.2 ++ key) v, sp.2)
  pairs := fun sp start stop =>
    (S.pairs sp.1 (branchLo sp.2 start) (branchHi sp.2 stop)).map
      (fun kv => (kv.1.drop sp.2.length, kv.2))

/-- Continuation byte of a UTF-8 sequence: `0x80 ..= 0xBF`. -/
def contByte (b : Nat) : Bool := 0x80 ≤ b && b ≤ 0xBF

/-- Validity of a byte string as UTF-8 (RFC 3629), the check performed by
`std::str::from_utf8` which `String::from_bytes` delegates to in
`src/containers/map.rs`. -/
def validUtf8 : Bytes → Bool
  | [] => true
  | b :: rest =>
    if b ≤ 0x7F then validUtf8 rest
    else if 0xC2 ≤ b && b ≤ 0xDF then
      match rest with
      | c1 :: rest2 => contByte c1 && validUtf8 rest2
      | [] => false
    else if b = 0xE0 then
      match rest with
      | c1 :: c2 :: rest2 =>
        (0xA0 ≤ c1 && c1 ≤ 0xBF) && contByte c2 && validUtf8 rest2
      | _ => false
    else if (0xE1 ≤ b && b ≤ 0xEC) || b = 0xEE || b = 0xEF then
      match rest with
      | c1 :: c2 :: rest2 => contByte c1 && contByte c2 && validUtf8 rest2
      | _ => false
    else if b = 0xED then
      match rest with
      | c1 :: c2 :: rest2 =>
        (0x80 ≤ c1 && c1 ≤ 0x9F) && contByte c2 && validUtf8 rest2
      | _ => false
    else if b = 0xF0 then
      match rest with
      | c1 :: c2 :: c3 :: rest2 =>
        (0x90 ≤ c1 && c1 ≤ 0xBF) && contByte c2 && contByte c3 && validUtf8 rest2
      | _ => false
    else if 0xF1 ≤ b && b ≤ 0xF3 then
      match rest with
      | c1 :: c2 :: c3 :: rest2 =>
        contByte c1 && contByte c2 && contByte c3 && validUtf8 rest2
      | _ => false
    else if b = 0xF4 then
      match rest with
      | c1 :: c2 :: c3 :: rest2 =>
        (0x80 ≤ c1 && c1 ≤ 0x8F) && contByte c2 && contByte c3 && validUtf8 rest2
      | _ => false
    else false

/-- A Rust `String` key viewed through the storage layer: a byte string that
is valid UTF-8.  `Key::bytes` for `String` (in `src/containers/map.rs`) is
the underlying byte slice, so the byte representation is the key. -/
def RStr := { l : Bytes // validUtf8 l = true }

instance : DecidableEq RStr := fun a b =>
  decidable_of_iff (a.val = b.val) Subtype.ext_iff.symm

instance {ε α : Type} [DecidableEq ε] [DecidableEq α] :
    DecidableEq (Except ε α) := fun a b =>
  match a, b with
  | .error e1, .error e2 =>
    if h : e1 = e2 then isTrue (by subst h; rfl)
    else isFalse (by intro hc; injection hc; exact h (by assumption))
  | .ok a1, .ok a2 =>
    if h : a1 = a2 then isTrue (by subst h; rfl)
    else isFalse (by intro hc; injection hc; exact h (by assumption))
  | .error _, .ok _ => isFalse (by intro hc; injection hc)
  | .ok _, .error _ => isFalse (by intro hc; injection hc)

/-- `Key::bytes` for `String` in `src/containers/map.rs`. -/
def RStr.bytes (s : RStr) : Bytes := s.val

/-- `OwnedKey::from_bytes` for `String` in `src/containers/map.rs`:
UTF-8 validation (`std::str::from_utf8`), erring on invalid bytes. -/
def RStr.from_bytes (b : Bytes) : Except Unit RStr :=
  if h : validUtf8 b = true then .ok ⟨b, h⟩ else .error ()

/-- The length-prefixed key segment built inline by `MapAccess::entry` and
`entry_mut` in `src/containers/map.rs`: `key.push(len as u8)` followed by the
key bytes — the cast truncates, so the written byte is `len % 256` and no
error is ever raised. -/
def entrySegment (bytes : Bytes) : Bytes := (bytes.length % 256) :: bytes

/-- `Map::decode_key` from `src/containers/map.rs`, parametric in the inner
container's decoder: read the first byte as `len` (error on empty input),
error when the input is shorter than `len + 1`, decode bytes `[1, len+1)` as
the local `String` key, and recurse on the remainder. -/
def Map.decode_key (inner : Bytes → Except Unit β) (key : Bytes) :
    Except Unit (RStr × β) :=
  match key.head? with
  | none => .error ()
  | some len =>
    if key.length < len + 1 then .error ()
    else
      match RStr.from_bytes ((key.drop 1).take len) with
      | .error _ => .error ()
      | .ok mk =>
        match inner (key.drop (len + 1)) with
        | .error e => .error e
        | .ok rest => .ok (mk, rest)

/-- Container shapes of the system: the terminal `Item` and the recursive
`Map<String, _>` (the only key type implemented in `src/containers/map.rs`). -/
inductive Shape where
  | item
  | map (v : Shape)

/-- The composite-key type of a container: `()` at an `Item`,
`(K, inner)` at a `Map` (`Storable::Key` in `src/containers/map.rs`). -/
def Shape.KeyTy : Shape → Type
  | .item => Unit
  | .map v => RStr × v.KeyTy

instance Shape.decEqKeyTy : (c : Shape) → DecidableEq c.KeyTy
  | .item => inferInstanceAs (DecidableEq Unit)
  | .map v =>
    have := Shape.decEqKeyTy v
    inferInstanceAs (DecidableEq (RStr × v.KeyTy))

/-- Composite-key decoding, by recursion on the container shape.  The `map`
case is `Map::decode_key` from `src/containers/map.rs`; the `item` case is
modelled from the spec (§4.3: a Terminal container consumes zero bytes and
returns `()`), the `Item` source file not being under `src/`. -/
def Shape.decodeKey : (c : Shape) → Bytes → Except Unit c.KeyTy
  | .item, _ => .ok ()
  | .map v, key => Map.decode_key (Shape.decodeKey v) key

/-- Modelled from the spec: the test value codec for `u64` (Scenario A:
"the 8-byte little/defined-endian encoding"), `tests/common/encoding.rs`
not being under `src/`; the tests compare against `u64::to_le_bytes`. -/
def encodeU64 (v : Nat) : Bytes :=
  [v % 256, v / 256 % 256, v / 256 ^ 2 % 256, v / 256 ^ 3 % 256,
   v / 256 ^ 4 % 256, v / 256 ^ 5 % 256, v / 256 ^ 6 % 256, v / 256 ^ 7 % 256]

/-- Modelled from the spec: decoding of the test `u64` codec — exactly eight
little-endian bytes. -/
def decodeU64 : Bytes → Except Unit Nat
  | [b0, b1, b2, b3, b4, b5, b6, b7] =>
    .ok (b0 + 256 * (b1 + 256 * (b2 + 256 * (b3 + 256 * (b4 + 256 *
      (b5 + 256 * (b6 + 256 * b7)))))))
  | _ => .error ()

/-- `MapAccess::entry` / `entry_mut` from `src/containers/map.rs`: wrap the
accessor's storage in a new `StorageBranch` whose prefix is the
length-prefixed segment of the key. -/
def MapAccess.entry (s : σ) (key : RStr) : StorageBranch σ :=
  (s, entrySegment key.bytes)

/-- Modelled from the spec: the `Item` accessor's `set` (§4.5) writes the
encoded value at the empty logical key of its branch, so the physical key is
exactly the accumulated prefix; the `Item` source file is not under `src/`. -/
def ItemAccess.set (S : StorageOps σ) (s : σ) (v : Nat) : σ :=
  S.set s [] (encodeU64 v)

/-- Modelled from the spec: the `Item` accessor's `get` (§4.5) — a backend
miss is `Ok(None)`, a present value is decoded by the value codec. -/
def ItemAccess.get (S : StorageOps σ) (s : σ) : Except Unit (Option Nat) :=
  match S.get s [] with
  | none => .ok none
  | some raw => (decodeU64 raw).map some

/-- One raw backend entry decoded into a typed entry, as the iteration
engine does per element: the key through `Shape.decodeKey`, the value through
the value codec. -/
def decodeEntry (c : Shape) (kv : Bytes × Bytes) : Except Unit (c.KeyTy × Nat) :=
  match c.decodeKey kv.1 with
  | .error e => .error e
  | .ok k =>
    match decodeU64 kv.2 with
    | .error e => .error e
    | .ok v => .ok (k, v)

/-- Modelled from the spec: collecting a decoded iteration sequence the way
the tests consume `StorableIter` (`collect::<Result<Vec<_>, _>>`), stopping
at the first error (§4.5); the `StorableIter` `Iterator` impl is not under
`src/`. -/
def collectResults : List (Except Unit α) → Except Unit (List α)
  | [] => .ok []
  | .error e :: _ => .error e
  | .ok a :: rest =>
    match collectResults rest with
    | .error e => .error e
    | .ok as => .ok (a :: as)

/-- `MapAccess::iter` from `src/containers/map.rs` composed with the
spec-modelled iteration engine: raw pairs from the accessor's storage,
decoded entry-wise, collected with stop-at-first-error. -/
def MapAccess.iter (c : Shape) (S : StorageOps σ) (s : σ)
    (start stop : Option Bytes) : Except Unit (List (c.KeyTy × Nat)) :=
  collectResults ((S.pairs s start stop).map (decodeEntry c))

/-! ### The accessor chain, flattened -/

/-- `Map::access` from `src/containers/map.rs`: bind the container's static
prefix to the backend via a new branch.  In flattened form a chain of nested
branches over the test backend is the backend plus the concatenated prefix. -/
def accessFlat (ts : TestStorage) (pfx : Bytes) : TestStorage × Bytes := (ts, pfx)

/-- One `entry`/`entry_mut` step in flattened form: the child accessor's
branch prefix is the parent prefix extended by the length-prefixed segment
(`src/containers/map.rs`). -/
def entryFlat (sp : TestStorage × Bytes) (k : RStr) : TestStorage × Bytes :=
  (sp.1, sp.2 ++ entrySegment k.bytes)

/-- The terminal `Item` write in flattened form: store the encoded value at
the accumulated prefix (the branch's empty logical key). -/
def itemSetFlat (sp : TestStorage × Bytes) (v : Nat) : TestStorage :=
  TestStorage.set sp.1 (sp.2 ++ []) (encodeU64 v)

/-- A whole write through nested `Map` accessors: `access` at the root
prefix, an `entry_mut` per path segment, then the `Item` accessor's `set`. -/
def setPath (ts : TestStorage) (pfx : Bytes) (path : List RStr) (v : Nat) :
    TestStorage :=
  itemSetFlat (path.foldl entryFlat (accessFlat ts pfx)) v

/-- The spec's documented physical layout (§6): the root prefix followed by
`len(ki) ++ ki_bytes` for every path segment, with `len(ki)` the actual
byte length. -/
def specLayout (pfx : Bytes) (path : List RStr) : Bytes :=
  pfx ++ (path.map (fun k => k.bytes.length :: k.bytes)).flatten


/-- Concrete keys used by the repository's tests ("foo", "bar", "baz",
"qux", "quux") as byte strings with their UTF-8 validity proofs. -/
def fooK : RStr := ⟨[102, 111, 111], by decide⟩

/-- The test key "bar". -/
def barK : RStr := ⟨[98, 97, 114], by decide⟩

/-- The test key "baz". -/
def bazK : RStr := ⟨[98, 97, 122], by decide⟩

/-- The test key "qux". -/
def quxK : RStr := ⟨[113, 117, 120], by decide⟩

/-- The test key "quux". -/
def quuxK : RStr := ⟨[113, 117, 117, 120], by decide⟩

/-- The empty string as a key. -/
def emptyK : RStr := ⟨[], rfl⟩

/-- A 256-byte key: 256 copies of the letter a (valid UTF-8). -/
def aaBytes : Bytes := List.replicate 256 97

set_option maxRecDepth 2000 in
/-- The 256-byte key as an owned `String` key. -/
def aaK : RStr := ⟨aaBytes, by decide⟩

/-- A 255-byte key: 255 copies of the letter a. -/
def aBytes255 : Bytes := List.replicate 255 97

/-- Scenario C write path, exactly as the `composable_iteration` test does
it: `map.access(storage).entry_mut(k1).entry_mut(k2).set(&v)` — two nested
branches over the branch created by `access` at root prefix `[0]`, ending in
the `Item` write; the result is the updated root backend. -/
def setTwo (ts : TestStorage) (k1 k2 : RStr) (v : Nat) : TestStorage :=
  (ItemAccess.set (branchOps (branchOps (branchOps TestStorage.ops)))
    (MapAccess.entry (MapAccess.entry ((ts, [0]) : StorageBranch TestStorage) k1) k2)
    v).1.1.1

/-- The Scenario C store: ("foo","bar")→1337, ("foo","baz")→42,
("qux","quux")→9001 under a `Map<String, Map<String, Item<u64>>>` at `[0]`. -/
def tsC : TestStorage :=
  setTwo (setTwo (setTwo [] fooK barK 1337) fooK bazK 42) quxK quuxK 9001

/-- One-level write path (the `simple_iteration` test):
`map.access(storage).entry_mut(k).set(&v)` at root prefix `[0]`. -/
def setOne (ts : TestStorage) (k : RStr) (v : Nat) : TestStorage :=
  (ItemAccess.set (branchOps (branchOps TestStorage.ops))
    (MapAccess.entry ((ts, [0]) : StorageBranch TestStorage) k) v).1.1

/-- The `simple_iteration` store: "foo"→1337, "bar"→42 under
`Map<String, Item<u64>>` at `[0]`. -/
def tsSimple : TestStorage := setOne (setOne [] fooK 1337) barK 42

/-- Rust slice expression `&key[a..b]`: defined only when
`a ≤ b ≤ key.len()`; `none` models the out-of-bounds panic. -/
def rustSlice (l : Bytes) (a b : Nat) : Option Bytes :=
  if a ≤ b ∧ b ≤ l.length then some ((l.drop a).take (b - a)) else none

/-- Rust slice expression `&key[a..]`: defined only when `a ≤ key.len()`. -/
def rustSliceFrom (l : Bytes) (a : Nat) : Option Bytes :=
  if a ≤ l.length then some (l.drop a) else none

/-- `Map::decode_key` with every slice access routed through the partial
Rust slice semantics, `none` modelling a panic; `key.get(0)` is already a
checked access in the source, so the empty case is a clean error. -/
def Map.decode_key_checked (inner : Bytes → Option (Except Unit β))
    (key : Bytes) : Option (Except Unit (RStr × β)) :=
  match key.head? with
  | none => some (.error ())
  | some len =>
    if key.length < len + 1 then some (.error ())
    else
      (rustSlice key 1 (len + 1)).bind (fun seg =>
        match RStr.from_bytes seg with
        | .error _ => some (.error ())
        | .ok mk =>
          (rustSliceFrom key (len + 1)).bind (fun remainder =>
            (inner remainder).bind (fun res =>
              match res with
              | .error e => some (.error e)
              | .ok rest => some (.ok (mk, rest)))))

/-- A store holding one well-formed entry and, after it, an entry whose raw
key is corrupt (declared length 5 with no bytes following). -/
def tsBad : TestStorage := [([3, 102, 111, 111], encodeU64 5), ([5], [9])]

/-- Strictly ascending key order of a backend snapshot — the invariant the
`BTreeMap` model maintains. -/
abbrev sortedKeys (l : List (Bytes × Bytes)) : Prop :=
  l.Pairwise (fun a b => lexLt a.1 b.1 = true)

/-! ### Basic facts about the lexicographic byte order -/

theorem lexLt_nil_right (l : Bytes) : lexLt l [] = false := by
  cases l <;> rfl

theorem lexLt_cons_same (x : Nat) (a b : Bytes) :
    lexLt (x :: a) (x :: b) = lexLt a b := by
  simp [lexLt]

theorem lexLt_append_left (p a b : Bytes) :
    lexLt (p ++ a) (p ++ b) = lexLt a b := by
  induction p with
  | nil => rfl
  | cons x p ih => simpa [lexLt_cons_same] using ih

theorem lexLt_append_of_lexLt :
    ∀ (k p s : Bytes), lexLt k p = true → lexLt k (p ++ s) = true
  | [], [], _, h => by simp [lexLt] at h
  | [], _ :: _, _, _ => rfl
  | _ :: _, [], _, h => by simp [lexLt] at h
  | a :: as, b :: bs, s, h => by
    simp only [lexLt, List.cons_append, Bool.or_eq_true, Bool.and_eq_true,
      decide_eq_true_eq] at h ⊢
    rcases h with h | ⟨he, h⟩
    · exact Or.inl h
    · exact Or.inr ⟨he, lexLt_append_of_lexLt as bs s h⟩

theorem prefix_of_lexLt_between :
    ∀ (p k e : Bytes), lexLt k p = false → lexLt k (p ++ e) = true → p <+: k
  | [], k, _, _, _ => List.nil_prefix
  | _ :: _, [], _, hk, _ => by simp [lexLt] at hk
  | b :: bs, a :: as, e, hk, he => by
    simp only [lexLt, Bool.or_eq_false_iff, Bool.and_eq_false_iff,
      decide_eq_false_iff_not, decide_eq_true_eq] at hk
    simp only [lexLt, List.cons_append, Bool.or_eq_true, Bool.and_eq_true,
      decide_eq_true_eq] at he
    rcases he with he | ⟨hab, hrest⟩
    · exact absurd he hk.1
    · rcases hk.2 with h | h
      · exact absurd (decide_eq_true hab) (by simpa using h)
      · exact (List.cons_prefix_cons).2
          ⟨hab.symm, prefix_of_lexLt_between bs as e h hrest⟩

theorem prefix_of_keyAfter :
    ∀ (p k : Bytes), (∀ b ∈ k, b ≤ 255) → lexLt k p = false →
      (∀ hi, keyAfter p = some hi → lexLt k hi = true) → p <+: k
  | [], k, _, _, _ => List.nil_prefix
  | _ :: _, [], _, hk, _ => by simp [lexLt] at hk
  | b :: bs, a :: as, hbytes, hk, hhi => by
    have ha : a ≤ 255 := hbytes a (List.mem_cons_self a as)
    have hbytes2 : ∀ x ∈ as, x ≤ 255 := fun x hx => hbytes x (List.mem_cons_of_mem a hx)
    simp only [lexLt, Bool.or_eq_false_iff, Bool.and_eq_false_iff,
      decide_eq_false_iff_not, decide_eq_true_eq] at hk
    cases hr : keyAfter bs with
    | some r =>
      have h1 : lexLt (a :: as) (b :: r) = true := by
        apply hhi
        simp [keyAfter, hr]
      simp only [lexLt, Bool.or_eq_true, Bool.and_eq_true, decide_eq_true_eq] at h1
      rcases h1 with h1 | ⟨hab, h1⟩
      · exact absurd h1 hk.1
      · rcases hk.2 with h | h
        · exact absurd (decide_eq_true hab) (by simpa using h)
        · exact (List.cons_prefix_cons).2
            ⟨hab.symm, prefix_of_keyAfter bs as hbytes2 h
              (fun hi hhi2 => by rw [hr] at hhi2; cases hhi2; exact h1)⟩
    | none =>
      by_cases hb : b = 255
      · subst hb
        have hab : a = 255 := Nat.le_antisymm ha (Nat.le_of_not_lt hk.1)
        rcases hk.2 with h | h
        · exact absurd (decide_eq_true hab) (by simpa using h)
        · exact (List.cons_prefix_cons).2
            ⟨hab.symm, prefix_of_keyAfter bs as hbytes2 h
              (fun hi hhi2 => by rw [hr] at hhi2; cases hhi2)⟩
      · have h1 : lexLt (a :: as) [b + 1] = true := by
          apply hhi
          simp [keyAfter, hr, hb]
        simp only [lexLt, Bool.or_eq_true, Bool.and_eq_true, decide_eq_true_eq,
          lexLt_nil_right, Bool.and_eq_false_iff] at h1
        rcases h1 with h1 | ⟨_, h1⟩
        · have hab : a = b := Nat.le_antisymm (Nat.lt_succ_iff.mp h1) (Nat.le_of_not_lt hk.1)
          rcases hk.2 with h | h
          · exact absurd (decide_eq_true hab) (by simpa using h)
          · exact (List.cons_prefix_cons).2
              ⟨hab.symm, prefix_of_keyAfter bs as hbytes2 h
                (fun hi hhi2 => by rw [hr] at hhi2; cases hhi2)⟩
        · cases h1

/-! ### Point lookup after point write on the test backend -/

theorem TestStorage.get_set_self (ts : TestStorage) (k v : Bytes) :
    (ts.set k v).get k = some v := by
  induction ts with
  | nil => simp [TestStorage.set, TestStorage.get]
  | cons hd tl ih =>
    obtain ⟨k0, v0⟩ := hd
    by_cases h1 : lexLt k k0
    · simp [TestStorage.set, TestStorage.get, h1]
    · by_cases h2 : k = k0
      · subst h2
        simp [TestStorage.set, TestStorage.get, h1]
      · simp [TestStorage.set, TestStorage.get, h1, h2, ih]

theorem TestStorage.get_set_ne (ts : TestStorage) (k k2 v : Bytes) (hne : k2 ≠ k) :
    (ts.set k v).get k2 = ts.get k2 := by
  induction ts with
  | nil => simp [TestStorage.set, TestStorage.get, hne]
  | cons hd tl ih =>
    obtain ⟨k0, v0⟩ := hd
    by_cases h1 : lexLt k k0
    · simp [TestStorage.set, TestStorage.get, h1, hne]
    · by_cases h2 : k = k0
      · subst h2
        simp [TestStorage.set, TestStorage.get, h1, hne]
      · by_cases h3 : k2 = k0 <;>
          simp [TestStorage.set, TestStorage.get, h1, h2, h3, ih]

/-- Two byte strings extended under unrelated prefixes can never coincide,
because two prefixes of one list are always comparable. -/
theorem append_ne_of_unrelated {p1 p2 : Bytes} (a b : Bytes)
    (h1 : ¬ p1 <+: p2) (h2 : ¬ p2 <+: p1) : p1 ++ a ≠ p2 ++ b := by
  intro he
  rcases List.prefix_or_prefix_of_prefix (List.prefix_append p1 a)
    (he ▸ List.prefix_append p2 b) with h | h
  · exact h1 h
  · exact h2 h

/-! ### The key-segment codec round-trip -/

/-- Decoding a well-formed length-prefixed segment recovers the key and hands
the remaining bytes to the inner decoder, for any key of at most 255 bytes
(so that the `len as u8` byte written by `entry` is the actual length). -/
theorem decode_seg {β : Type} (k : RStr) (rest : Bytes)
    (inner : Bytes → Except Unit β) (hlen : k.bytes.length ≤ 255) :
    Map.decode_key inner (entrySegment k.bytes ++ rest) =
      (inner rest).map (fun r => (k, r)) := by
  have h256 : k.bytes.length % 256 = k.bytes.length :=
    Nat.mod_eq_of_lt (Nat.lt_of_le_of_lt hlen (by norm_num))
  have hnotlt : ¬ (entrySegment k.bytes ++ rest).length < k.bytes.length + 1 := by
    simp [entrySegment, Nat.succ_le_succ, Nat.le_add_right]
  rw [entrySegment, h256] at hnotlt ⊢
  rw [List.cons_append, Map.decode_key]
  simp only [List.head?_cons, if_neg hnotlt, List.drop_succ_cons,
    List.drop_one, List.tail_cons, List.drop_zero]
  rw [List.take_left' rfl, List.drop_left' rfl]
  rw [RStr.from_bytes]
  rw [dif_pos (show validUtf8 k.bytes = true from k.property)]
  cases hi : inner rest <;> simp [Except.map] <;> exact rfl

/-- Flattening one nested branch: reads compose by prefix concatenation. -/
theorem branch_branch_get (S : StorageOps σ) (s : σ) (p q k : Bytes) :
    (branchOps (branchOps S)).get ((s, p), q) k =
      (branchOps S).get (s, p ++ q) k := by
  simp [branchOps, List.append_assoc]

/-- Flattening one nested branch: writes compose by prefix concatenation
(the underlying root store is the same). -/
theorem branch_branch_set (S : StorageOps σ) (s : σ) (p q k v : Bytes) :
    ((branchOps (branchOps S)).set ((s, p), q) k v).1.1 =
      ((branchOps S).set (s, p ++ q) k v).1 := by
  simp [branchOps, List.append_assoc]

/-- Accumulating the `entry` steps of a path: the chained branch prefixes
concatenate to the root prefix followed by every length-prefixed segment
(with the true length byte whenever every segment is at most 255 bytes). -/
theorem foldl_entryFlat (path : List RStr) :
    ∀ (ts : TestStorage) (pfx : Bytes), (∀ k ∈ path, k.bytes.length ≤ 255) →
      path.foldl entryFlat (ts, pfx) =
        (ts, pfx ++ (path.map (fun k => k.bytes.length :: k.bytes)).flatten) := by
  induction path with
  | nil => intro ts pfx _; simp
  | cons k path ih =>
    intro ts pfx hlen
    have hk : k.bytes.length ≤ 255 := hlen k (List.mem_cons_self k path)
    have hseg : entrySegment k.bytes = k.bytes.length :: k.bytes := by
      rw [entrySegment, Nat.mod_eq_of_lt (Nat.lt_of_le_of_lt hk (by norm_num))]
    have step : entryFlat (ts, pfx) k = (ts, pfx ++ entrySegment k.bytes) := rfl
    simp only [List.foldl_cons, step,
      ih ts (pfx ++ entrySegment k.bytes)
        (fun x hx => hlen x (List.mem_cons_of_mem k hx))]
    simp [hseg, List.append_assoc]

/-- A key segment of a nonempty key is never the empty key's segment `[0]`:
the segment of a `n`-byte key has `n + 1` bytes. -/
theorem entrySegment_ne_of_ne_empty (k : RStr) (hk : k ≠ emptyK) :
    entrySegment k.bytes ≠ [0] := by
  intro he
  apply hk
  have hlen : k.bytes.length + 1 = 1 := by
    have h2 := congrArg List.length he
    simpa [entrySegment] using h2
  have h0 : k.bytes.length = 0 := by omega
  exact Subtype.ext (List.length_eq_zero.mp h0)

/-- C2: a value written through nested `Map` accessors under root prefix `P`
with path `(k1, ..., kn)` is stored at the physical key
`P ++ len(k1) ++ k1_bytes ++ ... ++ len(kn) ++ kn_bytes` (one length byte per
segment), with the value codec's encoding as the physical value — for every
path whose segments each fit the single length byte (at most 255 bytes). -/
theorem map_entry_physical_layout (ts : TestStorage) (pfx : Bytes)
    (path : List RStr) (v : Nat) (hlen : ∀ k ∈ path, k.bytes.length ≤ 255) :
    setPath ts pfx path v = ts.set (specLayout pfx path) (encodeU64 v) ∧
    (setPath ts pfx path v).get (specLayout pfx path) = some (encodeU64 v) := by
  have h1 : setPath ts pfx path v = ts.set (specLayout pfx path) (encodeU64 v) := by
    rw [setPath, accessFlat, foldl_entryFlat path ts pfx hlen, itemSetFlat]
    simp [specLayout]
  refine ⟨h1, ?_⟩
  rw [h1]
  exact TestStorage.get_set_self ts (specLayout pfx path) (encodeU64 v)

/-- Witness for C2 at Scenario B's data: writing ("foo","bar") → 1337 at
root prefix `[0]` lands at `[0, 3, f, o, o, 3, b, a, r]`. -/
theorem map_entry_physical_layout_witness :
    setPath [] [0] [fooK, barK] 1337 =
      TestStorage.set [] (specLayout [0] [fooK, barK]) (encodeU64 1337) ∧
    (setPath [] [0] [fooK, barK] 1337).get (specLayout [0] [fooK, barK]) =
      some (encodeU64 1337) :=
  map_entry_physical_layout [] [0] [fooK, barK] 1337 (by decide)

/-- C3: decoding a length-prefixed segment followed by arbitrary remaining
bytes recovers the original owned key and delegates the remainder to the
inner container's decoder, for every key whose byte encoding fits the single
length byte the segment carries (at most 255 bytes). -/
theorem segment_roundtrip {β : Type} (k : RStr) (rest : Bytes)
    (inner : Bytes → Except Unit β) (hlen : k.bytes.length ≤ 255) :
    Map.decode_key inner (entrySegment k.bytes ++ rest) =
      (inner rest).map (fun r => (k, r)) :=
  decode_seg k rest inner hlen

/-- Witness for C3: the segment of "foo" followed by the segment of "bar"
decodes back to "foo" with the remainder handed to the inner decoder. -/
theorem segment_roundtrip_witness :
    Map.decode_key (Shape.decodeKey (.map .item))
        (entrySegment fooK.bytes ++ [3, 98, 97, 114]) =
      (Shape.decodeKey (.map .item) [3, 98, 97, 114]).map (fun r => (fooK, r)) :=
  segment_roundtrip fooK [3, 98, 97, 114] (Shape.decodeKey (.map .item)) (by decide)

set_option maxRecDepth 4000 in
/-- C1: FALSE of the code — `MapAccess::entry`/`entry_mut` raise no
length-overflow error at all.  For the 256-byte key the length byte is
truncated (`len as u8` = 0) and the write still reaches the backend; a
255-byte key keeps its true length byte. -/
theorem entry_overlong_key_truncates_and_writes :
    aaK.bytes.length = 256 ∧
    entrySegment aaK.bytes = 0 :: aaBytes ∧
    entrySegment aBytes255 = 255 :: aBytes255 ∧
    (setPath [] [0] [aaK] 7).get ([0] ++ 0 :: aaBytes) = some (encodeU64 7) := by
  refine ⟨by decide, by decide, by decide, by decide⟩

set_option maxRecDepth 4000 in
/-- C6: FALSE of the code as stated for arbitrary distinct sibling keys —
the empty key and the 256-byte key are distinct siblings whose segments, as
built by `entry`, are one a byte-prefix of the other (both start with length
byte 0), and decoding the 256-byte key's segment actually returns the empty
key. -/
theorem segment_prefix_collision :
    emptyK ≠ aaK ∧
    entrySegment emptyK.bytes <+: entrySegment aaK.bytes ∧
    Map.decode_key (Shape.decodeKey .item) (entrySegment aaK.bytes) =
      .ok (emptyK, ()) := by
  refine ⟨by decide, ⟨aaBytes, by decide⟩, by decide⟩

/-- C5: `Map::decode_key` errs exactly on empty input, on input shorter than
`len + 1` bytes, and on a local key failing UTF-8 validation; otherwise it
decodes the `len` bytes after the length byte as the local key and delegates
the remaining bytes to the inner container's decoder, pairing the results. -/
theorem map_decode_key_cases {β : Type} (inner : Bytes → Except Unit β)
    (key : Bytes) :
    (key = [] → Map.decode_key inner key = .error ()) ∧
    (∀ len rest, key = len :: rest → rest.length < len →
      Map.decode_key inner key = .error ()) ∧
    (∀ len rest, key = len :: rest → len ≤ rest.length →
      validUtf8 (rest.take len) = false → Map.decode_key inner key = .error ()) ∧
    (∀ len rest, key = len :: rest → len ≤ rest.length →
      ∀ h : validUtf8 (rest.take len) = true,
        Map.decode_key inner key =
          (inner (rest.drop len)).map (fun r => (⟨rest.take len, h⟩, r))) := by
  refine ⟨?_, ?_, ?_, ?_⟩
  · intro h; subst h; rfl
  · intro len rest hk hlt; subst hk
    rw [Map.decode_key]
    simp only [List.head?_cons, List.length_cons]
    rw [if_pos (Nat.succ_lt_succ hlt)]
  · intro len rest hk hle hbad; subst hk
    rw [Map.decode_key]
    simp only [List.head?_cons, List.length_cons, List.drop_one, List.tail_cons]
    rw [if_neg (by omega), RStr.from_bytes, dif_neg (by simp [hbad])]
  · intro len rest hk hle h; subst hk
    rw [Map.decode_key]
    simp only [List.head?_cons, List.length_cons, List.drop_one, List.tail_cons,
      List.drop_succ_cons, List.drop_zero]
    rw [if_neg (by omega), RStr.from_bytes, dif_pos h]
    cases hi : inner (rest.drop len) <;> simp [Except.map]

/-- Witness for C5: the input `[2, 97, 255, 5]` declares a 2-byte local key
whose bytes `[97, 255]` are invalid UTF-8, so decoding errs. -/
theorem map_decode_key_cases_witness :
    Map.decode_key (Shape.decodeKey .item) [2, 97, 255, 5] = .error () :=
  (map_decode_key_cases (Shape.decodeKey .item) [2, 97, 255, 5]).2.2.1 2 [97, 255, 5]
    rfl (by decide) (by decide)

/-- C9: `Map::decode_key` is total and panic-free — with every slice access
interpreted by the partial Rust slice semantics, decoding never reaches an
out-of-bounds access (never returns the panic value `none`), because the
`key.len() < len + 1` guard protects both the local-key slice `[1, len+1)`
and the remainder slice `[len+1, ..)`. -/
theorem decode_key_no_out_of_bounds {β : Type}
    (inner : Bytes → Except Unit β) (innerChecked : Bytes → Option (Except Unit β))
    (hinner : ∀ b, innerChecked b = some (inner b)) (key : Bytes) :
    Map.decode_key_checked innerChecked key = some (Map.decode_key inner key) := by
  cases key with
  | nil => rfl
  | cons len rest =>
    rw [Map.decode_key_checked, Map.decode_key]
    simp only [List.head?_cons]
    by_cases hlt : (len :: rest).length < len + 1
    · rw [if_pos hlt, if_pos hlt]
    · rw [if_neg hlt, if_neg hlt]
      have hle : len + 1 ≤ (len :: rest).length := Nat.le_of_not_lt hlt
      rw [rustSlice, if_pos ⟨by omega, hle⟩, rustSliceFrom, if_pos (by omega)]
      have hdt : ((len :: rest).drop 1).take (len + 1 - 1) =
          ((len :: rest).drop 1).take len := by norm_num
      rw [hdt]
      simp only [Option.some_bind, hinner]
      cases RStr.from_bytes (((len :: rest).drop 1).take len) with
      | error e => rfl
      | ok mk =>
        cases inner ((len :: rest).drop (len + 1)) with
        | error e => rfl
        | ok r => rfl

/-- Witness for C9 at a declared length larger than the input: no panic,
just the decode error. -/
theorem decode_key_no_out_of_bounds_witness :
    Map.decode_key_checked (fun b => some (Shape.decodeKey .item b)) [5, 1] =
      some (Map.decode_key (Shape.decodeKey .item) [5, 1]) :=
  decode_key_no_out_of_bounds (Shape.decodeKey .item)
    (fun b => some (Shape.decodeKey .item b)) (fun _ => rfl) [5, 1]

/-- C10: the empty string is a valid map key — its segment is the single
byte `[0]`, decoding a key starting with byte 0 returns the empty string and
recurses on the rest, and the empty key's segment (hence its physical entry
under any shared parent prefix) collides with no other key's. -/
theorem empty_string_key_valid :
    entrySegment emptyK.bytes = [0] ∧
    (∀ (β : Type) (inner : Bytes → Except Unit β) (rest : Bytes),
      Map.decode_key inner (0 :: rest) = (inner rest).map (fun r => (emptyK, r))) ∧
    (∀ k : RStr, k ≠ emptyK → entrySegment k.bytes ≠ entrySegment emptyK.bytes) ∧
    (∀ (ts : TestStorage) (p : Bytes) (k : RStr) (v : Bytes), k ≠ emptyK →
      (ts.set (p ++ entrySegment emptyK.bytes) v).get (p ++ entrySegment k.bytes) =
        ts.get (p ++ entrySegment k.bytes)) := by
  refine ⟨rfl, ?_, ?_, ?_⟩
  · intro β inner rest
    exact decode_seg emptyK rest inner (by decide)
  · intro k hk
    exact entrySegment_ne_of_ne_empty k hk
  · intro ts p k v hk
    apply TestStorage.get_set_ne
    intro he
    exact entrySegment_ne_of_ne_empty k hk (List.append_cancel_left he)

/-- Witness for C10: "foo"'s segment differs from the empty key's, and a
write under the empty key does not shadow a read of "foo"'s entry. -/
theorem empty_string_key_valid_witness :
    entrySegment fooK.bytes ≠ entrySegment emptyK.bytes ∧
    (TestStorage.set [] ([0] ++ entrySegment emptyK.bytes) [1]).get
        ([0] ++ entrySegment fooK.bytes) =
      TestStorage.get [] ([0] ++ entrySegment fooK.bytes) :=
  ⟨empty_string_key_valid.2.2.1 fooK (by decide),
   empty_string_key_valid.2.2.2 [] [0] fooK [1] (by decide)⟩

/-- Keys yielded by the backend within a branch's computed bounds always
carry the branch prefix (the backend honours `check_bounds`, and the bounds
`branchLo`/`branchHi` delimit exactly the keys extending the prefix). -/
theorem pairs_mem_prefix (ts : TestStorage) (p : Bytes) (start stop : Option Bytes)
    (hbytes : ∀ kv ∈ ts, ∀ b ∈ kv.1, b ≤ 255) :
    ∀ kv ∈ ts.pairs (branchLo p start) (branchHi p stop), p <+: kv.1 := by
  intro kv hkv
  rw [TestStorage.pairs] at hkv
  obtain ⟨hmem, hcb⟩ := List.mem_filter.mp hkv
  have hb : ∀ b ∈ kv.1, b ≤ 255 := hbytes kv hmem
  rw [check_bounds.eq_def, Bool.and_eq_true] at hcb
  obtain ⟨hlo, hhi⟩ := hcb
  have hlow : lexLt kv.1 p = false := by
    cases start with
    | none =>
      simp only [branchLo, Bool.not_eq_true'] at hlo
      exact hlo
    | some st =>
      have h1 : lexLt kv.1 (p ++ st) = false := by
        simp only [branchLo, Bool.not_eq_true'] at hlo
        exact hlo
      cases h2 : lexLt kv.1 p with
      | false => rfl
      | true => rw [lexLt_append_of_lexLt kv.1 p st h2] at h1; cases h1
  cases stop with
  | some e =>
    have h1 : lexLt kv.1 (p ++ e) = true := by
      simpa only [branchHi] using hhi
    exact prefix_of_lexLt_between p kv.1 e hlow h1
  | none =>
    apply prefix_of_keyAfter p kv.1 hb hlow
    intro hi h2
    rw [branchHi, h2] at hhi
    exact hhi

/-- C4: a storage branch reads and writes exactly at `prefix ++ logical_key`;
its iteration passes the bounds `prefix ++ start` (or `prefix` alone) and
`prefix ++ end` (or the lexicographic successor of `prefix`) to the backend
and strips the prefix from every yielded key; every raw key the backend
yields inside those bounds carries the prefix; and a write through a branch
with prefix `P1` is invisible through a branch with an unrelated prefix `P2`. -/
theorem branch_namespacing_contract (ts : TestStorage) (p k v : Bytes)
    (start stop : Option Bytes) (p1 p2 k1 k2 w : Bytes)
    (hbytes : ∀ kv ∈ ts, ∀ b ∈ kv.1, b ≤ 255)
    (h12 : ¬ p1 <+: p2) (h21 : ¬ p2 <+: p1) :
    ((branchOps TestStorage.ops).get (ts, p) k = ts.get (p ++ k)) ∧
    (((branchOps TestStorage.ops).set (ts, p) k v).1 = ts.set (p ++ k) v) ∧
    ((branchOps TestStorage.ops).pairs (ts, p) start stop =
      (ts.pairs (branchLo p start) (branchHi p stop)).map
        (fun kv => (kv.1.drop p.length, kv.2))) ∧
    (∀ kv ∈ ts.pairs (branchLo p start) (branchHi p stop), p <+: kv.1) ∧
    (∀ kv ∈ (branchOps TestStorage.ops).pairs (ts, p) start stop,
      (p ++ kv.1, kv.2) ∈ ts.pairs (branchLo p start) (branchHi p stop)) ∧
    ((branchOps TestStorage.ops).get
        (((branchOps TestStorage.ops).set (ts, p1) k1 w).1, p2) k2 =
      (branchOps TestStorage.ops).get (ts, p2) k2) := by
  refine ⟨rfl, rfl, rfl, pairs_mem_prefix ts p start stop hbytes, ?_, ?_⟩
  · intro kv hkv
    obtain ⟨raw, hraw, heq⟩ := List.mem_map.mp hkv
    obtain ⟨t, ht⟩ := pairs_mem_prefix ts p start stop hbytes raw hraw
    subst heq
    have hdrop : raw.1.drop p.length = t := by
      rw [← ht]; exact List.drop_left p t
    show (p ++ raw.1.drop p.length, raw.2) ∈ _
    rw [hdrop, ht]
    exact hraw
  · show TestStorage.get (TestStorage.set ts (p1 ++ k1) w) (p2 ++ k2) =
      TestStorage.get ts (p2 ++ k2)
    exact TestStorage.get_set_ne ts (p1 ++ k1) (p2 ++ k2) w
      (append_ne_of_unrelated k2 k1 h21 h12)

/-- Witness for C4 on a concrete store that even holds a key outside the
branch's namespace, with unrelated prefixes `[0]` and `[1]`. -/
theorem branch_namespacing_contract_witness :
    ((branchOps TestStorage.ops).get (([([0, 7], [1]), ([9], [2])] : TestStorage), [0]) [5] =
      TestStorage.get [([0, 7], [1]), ([9], [2])] ([0] ++ [5])) ∧
    (((branchOps TestStorage.ops).set (([([0, 7], [1]), ([9], [2])] : TestStorage), [0]) [5] [3]).1 =
      TestStorage.set [([0, 7], [1]), ([9], [2])] ([0] ++ [5]) [3]) ∧
    ((branchOps TestStorage.ops).pairs (([([0, 7], [1]), ([9], [2])] : TestStorage), [0]) none none =
      (TestStorage.pairs [([0, 7], [1]), ([9], [2])] (branchLo [0] none) (branchHi [0] none)).map
        (fun kv => (kv.1.drop (List.length [0]), kv.2))) ∧
    (∀ kv ∈ TestStorage.pairs [([0, 7], [1]), ([9], [2])] (branchLo [0] none) (branchHi [0] none),
      [0] <+: kv.1) ∧
    (∀ kv ∈ (branchOps TestStorage.ops).pairs (([([0, 7], [1]), ([9], [2])] : TestStorage), [0]) none none,
      ([0] ++ kv.1, kv.2) ∈
        TestStorage.pairs [([0, 7], [1]), ([9], [2])] (branchLo [0] none) (branchHi [0] none)) ∧
    ((branchOps TestStorage.ops).get
        (((branchOps TestStorage.ops).set (([([0, 7], [1]), ([9], [2])] : TestStorage), [0]) [5] [3]).1, [1]) [5] =
      (branchOps TestStorage.ops).get (([([0, 7], [1]), ([9], [2])] : TestStorage), [1]) [5]) :=
  branch_namespacing_contract [([0, 7], [1]), ([9], [2])] [0] [5] [3] none none
    [0] [1] [5] [5] [3] (by decide) (by decide) (by decide)

/-- Collecting a decoded sequence whose first failure sits after a prefix of
successes surfaces that first error, whatever comes later. -/
theorem collectResults_error_at_first {α : Type} :
    ∀ (good rest : List (Except Unit α)),
      (∀ e ∈ good, ∃ a, e = .ok a) →
      collectResults (good ++ .error () :: rest) = .error () := by
  intro good
  induction good with
  | nil => intro rest _; rfl
  | cons e good ih =>
    intro rest h
    obtain ⟨a, ha⟩ := h e (List.mem_cons_self e good)
    subst ha
    rw [List.cons_append]
    simp only [collectResults]
    rw [ih rest (fun x hx => h x (List.mem_cons_of_mem _ hx))]

/-- Collecting an all-successful decoded sequence succeeds, entry-wise. -/
theorem collectResults_ok_forall {α : Type} :
    ∀ (l : List (Except Unit α)), (∀ e ∈ l, ∃ a, e = .ok a) →
      ∃ out, collectResults l = .ok out ∧
        List.Forall₂ (fun e a => e = Except.ok a) l out := by
  intro l
  induction l with
  | nil => intro _; exact ⟨[], rfl, List.Forall₂.nil⟩
  | cons e l ih =>
    intro h
    obtain ⟨a, ha⟩ := h e (List.mem_cons_self e l)
    obtain ⟨out, hout, hf⟩ := ih (fun x hx => h x (List.mem_cons_of_mem e hx))
    subst ha
    refine ⟨a :: out, ?_, List.Forall₂.cons rfl hf⟩
    simp only [collectResults]
    rw [hout]

/-- C8: typed iteration decodes raw entries in backend order; the first
entry on which key or value decoding fails aborts the whole sequence with
that error — later entries cannot rescue it — and when every entry decodes,
the result is exactly the entry-wise decoding of the raw sequence. -/
theorem iteration_halts_on_first_decode_error (c : Shape) {σ : Type}
    (S : StorageOps σ) (s : σ) (start stop : Option Bytes) :
    (∀ good bad rest, S.pairs s start stop = good ++ bad :: rest →
      (∀ kv ∈ good, ∃ a, decodeEntry c kv = .ok a) →
      decodeEntry c bad = .error () →
      MapAccess.iter c S s start stop = .error ()) ∧
    ((∀ kv ∈ S.pairs s start stop, ∃ a, decodeEntry c kv = .ok a) →
      ∃ out, MapAccess.iter c S s start stop = .ok out ∧
        List.Forall₂ (fun kv a => decodeEntry c kv = Except.ok a)
          (S.pairs s start stop) out) := by
  constructor
  · intro good bad rest hsplit hgood hbad
    rw [MapAccess.iter, hsplit, List.map_append, List.map_cons, hbad]
    apply collectResults_error_at_first
    intro e he
    obtain ⟨kv, hkv, heq⟩ := List.mem_map.mp he
    obtain ⟨a, ha⟩ := hgood kv hkv
    exact ⟨a, heq ▸ ha⟩
  · intro hall
    obtain ⟨out, hout, hf⟩ :=
      collectResults_ok_forall ((S.pairs s start stop).map (decodeEntry c))
        (by
          intro e he
          obtain ⟨kv, hkv, heq⟩ := List.mem_map.mp he
          obtain ⟨a, ha⟩ := hall kv hkv
          exact ⟨a, heq ▸ ha⟩)
    exact ⟨out, hout, (List.forall₂_map_left_iff).mp hf⟩

/-- Witness for C8: over the store with a corrupt second entry, iteration
surfaces the decode error instead of skipping it. -/
theorem iteration_halts_witness :
    MapAccess.iter (.map .item) TestStorage.ops tsBad none none = .error () :=
  (iteration_halts_on_first_decode_error (.map .item) TestStorage.ops tsBad none none).1
    [([3, 102, 111, 111], encodeU64 5)] ([5], [9]) [] (by decide)
    (by
      intro kv hkv
      have hkv2 : kv = ([3, 102, 111, 111], encodeU64 5) := by
        simpa using hkv
      exact ⟨((fooK, ()), 5), by rw [hkv2]; decide⟩)
    (by decide)

/-- A byte string whose head is known is that head consed on its tail. -/
theorem eq_cons_head_tail {l : Bytes} {h0 : Nat} (hh : l.head? = some h0) :
    l = h0 :: l.tail := by
  cases l with
  | nil => cases hh
  | cons a t =>
    rw [List.head?_cons] at hh
    injection hh with h
    subst h
    rfl

/-- A successful collect is an entry-wise success. -/
theorem collectResults_ok_elim {α : Type} :
    ∀ (l : List (Except Unit α)) (out : List α), collectResults l = .ok out →
      List.Forall₂ (fun e a => e = Except.ok a) l out := by
  intro l
  induction l with
  | nil =>
    intro out h
    simp only [collectResults] at h
    injection h with h
    subst h
    exact List.Forall₂.nil
  | cons e l ih =>
    intro out h
    cases e with
    | error e0 =>
      simp only [collectResults] at h
      injection h
    | ok a =>
      cases hcol : collectResults l with
      | error e0 =>
        simp only [collectResults, hcol] at h
        injection h
      | ok out2 =>
        simp only [collectResults, hcol] at h
        injection h with h
        subst h
        exact List.Forall₂.cons rfl (ih out2 hcol)

/-- Right members of a `Forall₂` have related left members. -/
theorem forall2_mem_right {α β : Type} {S : α → β → Prop} :
    ∀ {l1 : List α} {l2 : List β}, List.Forall₂ S l1 l2 →
      ∀ b ∈ l2, ∃ a ∈ l1, S a b := by
  intro l1 l2 hf
  induction hf with
  | nil => intro b hb; cases hb
  | cons hS hf2 ih =>
    rename_i x y l1t l2t
    intro b hb
    rcases List.mem_cons.mp hb with hb | hb
    · subst hb
      exact ⟨x, List.mem_cons_self x l1t, hS⟩
    · obtain ⟨a, ha, hS2⟩ := ih b hb
      exact ⟨a, List.mem_cons_of_mem x ha, hS2⟩

/-- Transport of pairwise order along an element-wise relation. -/
theorem pairwise_of_forall2 {α β : Type} {S : α → β → Prop} {R : α → α → Prop}
    {R2 : β → β → Prop} :
    ∀ {l1 : List α} {l2 : List β}, List.Forall₂ S l1 l2 → List.Pairwise R l1 →
      (∀ x y a b, x ∈ l1 → y ∈ l1 → S x a → S y b → R x y → R2 a b) →
      List.Pairwise R2 l2 := by
  intro l1 l2 hf
  induction hf with
  | nil => intro _ _; exact List.Pairwise.nil
  | cons hS hf2 ih =>
    rename_i x a l1t l2t
    intro hp htrans
    obtain ⟨hx, hp2⟩ := List.pairwise_cons.mp hp
    refine List.Pairwise.cons ?_
      (ih hp2 (fun u v c d hu hv h1 h2 hr =>
        htrans u v c d (List.mem_cons_of_mem x hu) (List.mem_cons_of_mem x hv)
          h1 h2 hr))
    intro b hb
    obtain ⟨y, hy, hS2⟩ := forall2_mem_right hf2 b hb
    exact htrans x y a b (List.mem_cons_self x l1t) (List.mem_cons_of_mem x hy)
      hS hS2 (hx y hy)

/-- A successfully decoded one-level map entry whose raw (already stripped)
key is a length-`L` segment carries exactly the segment's key bytes as its
typed key. -/
theorem decoded_entry_bytes (x : Bytes × Bytes) (L : Nat)
    (a : (Shape.map .item).KeyTy × Nat)
    (hhead : x.1.head? = some (L % 256)) (hlen : x.1.length = L + 1)
    (hvalid : validUtf8 x.1.tail = true) (hL : L ≤ 255)
    (ha : decodeEntry (.map .item) x = .ok a) :
    a.1.1.bytes = x.1.tail := by
  have hx : x.1 = (L % 256) :: x.1.tail := eq_cons_head_tail hhead
  have hlt : x.1.tail.length = L := by
    rw [List.length_tail, hlen]
    omega
  have hseg : entrySegment (RStr.bytes ⟨x.1.tail, hvalid⟩) = (L % 256) :: x.1.tail := by
    show (x.1.tail.length % 256) :: x.1.tail = _
    rw [hlt]
  have hdk : Shape.decodeKey (.map .item) x.1 =
      .ok ((⟨x.1.tail, hvalid⟩ : RStr), ()) := by
    have h2 := decode_seg (⟨x.1.tail, hvalid⟩ : RStr) [] (Shape.decodeKey .item)
      (by show x.1.tail.length ≤ 255; rw [hlt]; exact hL)
    rw [List.append_nil, hseg, ← hx] at h2
    exact h2
  cases hdv : decodeU64 x.2 with
  | error e0 =>
    simp only [decodeEntry, hdk, hdv] at ha
    injection ha
  | ok v =>
    simp only [decodeEntry, hdk, hdv] at ha
    injection ha with ha
    subst ha
    rfl

set_option maxRecDepth 8000 in
/-- C7: for a map keyed by same-byte-length keys, whose byte encoding is the
owned `String` key's natural (UTF-8, order-preserving) order, unbounded
typed iteration yields entries in strictly ascending key order; on Scenario
C's two-level store, full iteration yields exactly the three entries in
order ("foo","bar"), ("foo","baz"), ("qux","quux"), and iteration of
`entry("foo")` yields exactly the two "foo" entries in order "bar", "baz". -/
theorem map_iteration_ordering :
    (∀ (ts : TestStorage) (p : Bytes) (L : Nat),
      sortedKeys ts →
      (∀ kv ∈ ts, ∀ b ∈ kv.1, b ≤ 255) →
      L ≤ 255 →
      (∀ kv ∈ (branchOps TestStorage.ops).pairs (ts, p) none none,
        kv.1.head? = some (L % 256) ∧ kv.1.length = L + 1 ∧
          validUtf8 kv.1.tail = true) →
      ∀ out,
        MapAccess.iter (.map .item) (branchOps TestStorage.ops) (ts, p)
          none none = .ok out →
        out.Pairwise (fun e1 e2 => lexLt e1.1.1.bytes e2.1.1.bytes = true)) ∧
    (MapAccess.iter (.map (.map .item)) (branchOps TestStorage.ops)
        (tsC, [0]) none none =
      .ok [((fooK, (barK, ())), 1337), ((fooK, (bazK, ())), 42),
           ((quxK, (quuxK, ())), 9001)]) ∧
    (MapAccess.iter (.map .item) (branchOps (branchOps TestStorage.ops))
        (MapAccess.entry ((tsC, [0]) : StorageBranch TestStorage) fooK)
        none none =
      .ok [((barK, ()), 1337), ((bazK, ()), 42)]) := by
  refine ⟨?_, by decide, by decide⟩
  intro ts p L hsort hbytes hL hform out hiter
  have hbp : (branchOps TestStorage.ops).pairs (ts, p) none none =
      (ts.pairs (branchLo p none) (branchHi p none)).map
        (fun kv => (kv.1.drop p.length, kv.2)) := rfl
  have hsortedraw : (ts.pairs (branchLo p none) (branchHi p none)).Pairwise
      (fun a b => lexLt a.1 b.1 = true) :=
    hsort.filter _
  have hprefix := pairs_mem_prefix ts p none none hbytes
  have hsortbp : ((branchOps TestStorage.ops).pairs (ts, p) none none).Pairwise
      (fun a b => lexLt a.1 b.1 = true) := by
    rw [hbp, List.pairwise_map]
    apply List.Pairwise.imp_of_mem ?_ hsortedraw
    intro x y hx hy hr
    obtain ⟨tx, htx⟩ := hprefix x hx
    obtain ⟨ty, hty⟩ := hprefix y hy
    show lexLt (x.1.drop p.length) (y.1.drop p.length) = true
    rw [← htx, ← hty] at hr ⊢
    rw [List.drop_left, List.drop_left]
    rw [lexLt_append_left] at hr
    exact hr
  have hf : List.Forall₂
      (fun kv a => decodeEntry (.map .item) kv = Except.ok a)
      ((branchOps TestStorage.ops).pairs (ts, p) none none) out := by
    rw [MapAccess.iter] at hiter
    exact (List.forall₂_map_left_iff).mp (collectResults_ok_elim _ out hiter)
  apply pairwise_of_forall2 hf hsortbp
  intro x y a b hx hy hxa hyb hr
  obtain ⟨hh1, hl1, hv1⟩ := hform x hx
  obtain ⟨hh2, hl2, hv2⟩ := hform y hy
  have hb1 := decoded_entry_bytes x L a hh1 hl1 hv1 hL hxa
  have hb2 := decoded_entry_bytes y L b hh2 hl2 hv2 hL hyb
  rw [hb1, hb2]
  rw [eq_cons_head_tail hh1, eq_cons_head_tail hh2, lexLt_cons_same] at hr
  exact hr

set_option maxRecDepth 8000 in
/-- Witness for C7 over the one-level `simple_iteration` store, whose keys
"foo" and "bar" share byte length 3: iteration yields them ascending. -/
theorem map_iteration_ordering_witness :
    List.Pairwise (fun e1 e2 => lexLt e1.1.1.bytes e2.1.1.bytes = true)
      ([((barK, ()), 42), ((fooK, ()), 1337)] :
        List ((Shape.map .item).KeyTy × Nat)) :=
  map_iteration_ordering.1 tsSimple [0] 3 (by decide) (by decide) (by decide)
    (by decide) [((barK, ()), 42), ((fooK, ()), 1337)] (by decide)
